import Mathlib

/-!
Verification of the NDGRClient message-connection engine.

This file gives a shallow embedding of the core pure logic of the
repository's connection engine and proves the stated properties about it:

* `AsyncIteratorSet` (src/lib/AsyncIteratorSet.ts): the producer/consumer
  channel state machine (enqueue / throw / close / next, with the optional
  one-shot filter mechanism).
* `checkCloseMessage` (src/api/utils.ts): program-ended detection.
* the message fetcher loop of `createServerMessageFetcher`
  (src/api/NicoliveUtility.ts): per-segment message consumption with the
  skip-to-meta-id filter and early program-ended termination.
* the entry fetcher loop of `createEntryFetcher`
  (src/api/NicoliveUtility.ts): entry classification with the
  `receivedSegment` latch.
* `getBackwardMessages` (src/api/NicoliveUtility.ts): the single-flight
  flag protocol, modelled at the granularity of JS microtask scheduling
  (an `async` IIFE runs synchronously up to its first `await`, then the
  caller's remaining synchronous statements run).
* `NicoliveMessageServer.fetchBackwardMessages`
  (src/api/NicoliveMessageServer.ts): the backward page walk, with the
  HTTP fetch/decode modelled as a function from URI to an optional
  decoded `PackedSegment` (`none` = truncated body / decode failure) and
  cooperative abort modelled as the number of pages successfully decoded
  before the abort signal fires.
* the watch-channel handlers of `NicoliveWs.connectWaitOpened`
  (ws client): ping handling (`sendKeepSeatAndPong`) and
  `postComment` vpos computation.

All machine numbers are modelled as `Int`/`Nat`; `Math.round` on the
exact rational is modelled by `Int.floor (x + 1/2)` (JS rounds ties
toward positive infinity). Option-typed fields mirror `undefined` in the
source.
-/

namespace NDGR

/-! ## Protobuf data model (src/gen/dwango_pb, the fields the engine reads) -/

/-- The `ProgramStatus.State` proto enum; the engine only distinguishes
`Ended` from everything else. -/
inductive ProgramStatus_State where
  | Unknown
  | Ended
  deriving Repr, DecidableEq

structure ProgramStatus where
  state : ProgramStatus_State
  deriving Repr, DecidableEq

/-- The `NicoliveState` message: only the optional `programStatus` field is
read by the engine. -/
structure NicoliveState where
  programStatus : Option ProgramStatus
  deriving Repr, DecidableEq

/-- The payload oneof of a `ChunkedMessage`. The engine only inspects the
case tag and, for `state`, the `programStatus` field; message/signal
contents are opaque here. -/
inductive MessagePayload where
  | message
  | state (value : NicoliveState)
  | signal
  | unset
  deriving Repr, DecidableEq

/-- The `ChunkedMessage.Meta` message; the engine reads `id` (the resume
cursor). -/
structure ChunkedMessage_Meta where
  id : String
  deriving Repr, DecidableEq

structure ChunkedMessage where
  meta : Option ChunkedMessage_Meta
  payload : MessagePayload
  deriving Repr, DecidableEq

/-- `checkCloseMessage` from src/api/utils.ts:
message != null && payload.case === "state" &&
payload.value.programStatus?.state === ProgramStatus_State.Ended. -/
def checkCloseMessage (message : Option ChunkedMessage) : Bool :=
  match message with
  | none => false
  | some m =>
    match m.payload with
    | .state value =>
      match value.programStatus with
      | some ps => ps.state = ProgramStatus_State.Ended
      | none => false
    | _ => false

/-! ## AsyncIteratorSet (src/lib/AsyncIteratorSet.ts)

The channel's mutable state is `state` (`"iterating" | "closed" | "error"`,
with the latched error stored at the transition), the FIFO `queue`, and the
current filter. The filter of the source is a function
`(value: T) => boolean | [boolean, Filter | undefined]`; we model its
current value as a state `f : F` together with a step function
`step : F → T → Bool × F` (the second component is the filter in force for
the next `enqueue`, which covers both the plain-boolean form, where the
filter is unchanged, and the tuple form, where it is replaced). -/

/-- Channel lifecycle state; the error latched by `throw` is carried on the
`error` constructor. -/
inductive IterState (E : Type) where
  | iterating
  | closed
  | error (e : E)
  deriving Repr, DecidableEq

structure IterSet (F T E : Type) where
  state : IterState E
  queue : List T
  filt : F
  deriving Repr, DecidableEq

/-- Tester for the source's `state !== "iterating"` early-return guard. -/
def IterState.isIterating {E : Type} : IterState E → Bool
  | .iterating => true
  | _ => false

/-- A fresh channel as built by `AsyncIteratorSet.create`. -/
def IterSet.create {F T E : Type} (f : F) : IterSet F T E :=
  { state := .iterating, queue := [], filt := f }

/-- `enqueue(value)`: no-op unless iterating; otherwise the filter decides
whether the value is queued and what the next filter is. -/
def IterSet.enqueue {F T E : Type} (step : F → T → Bool × F)
    (s : IterSet F T E) (value : T) : IterSet F T E :=
  if s.state.isIterating then
    let r := step s.filt value
    if r.1 then { s with queue := s.queue ++ [value], filt := r.2 }
    else { s with filt := r.2 }
  else s

/-- `throw(reason)`: latch the error state, but only while iterating
(`finishIterating` returns early otherwise). The queue is left as is. -/
def IterSet.throwErr {F T E : Type} (s : IterSet F T E) (e : E) :
    IterSet F T E :=
  if s.state.isIterating then { s with state := .error e } else s

/-- `close()`: latch the closed state, but only while iterating. -/
def IterSet.close {F T E : Type} (s : IterSet F T E) : IterSet F T E :=
  if s.state.isIterating then { s with state := .closed } else s

/-- Result of one consumer `next()` call. `pending` stands for the promise
that stays unresolved while the channel is empty and still iterating. -/
inductive ReadResult (T E : Type) where
  | value (v : T)
  | done
  | error (e : E)
  | pending
  deriving Repr, DecidableEq

/-- One consumer read. The source checks the queue first, so queued values
drain even after `close`/`throw`; with an empty queue the outcome is
decided by the channel state. -/
def IterSet.next {F T E : Type} (s : IterSet F T E) :
    ReadResult T E × IterSet F T E :=
  match s.queue with
  | v :: rest => (.value v, { s with queue := rest })
  | [] =>
    match s.state with
    | .iterating => (.pending, s)
    | .closed => (.done, s)
    | .error e => (.error e, s)

/-- `n` consecutive consumer reads; returns the outcome of the last one. -/
def IterSet.readAt {F T E : Type} (s : IterSet F T E) : Nat → ReadResult T E
  | 0 => (s.next).1
  | n + 1 => ((s.next).2).readAt n

/-- Enqueue a whole list in order. -/
def IterSet.enqueueAll {F T E : Type} (step : F → T → Bool × F)
    (s : IterSet F T E) (values : List T) : IterSet F T E :=
  values.foldl (IterSet.enqueue step) s

/-! ## The message fetcher (createServerMessageFetcher, src/api/NicoliveUtility.ts)

The fetcher's `AsyncIteratorSet` is created with a filter that, when
`skipToMetaId` is absent, is `metaFilter` (records `lastMeta`, returns
`true`, keeps everything), and otherwise drops every value until the first
one whose `meta.id` equals `skipToMetaId`, dropping that one too and
installing `metaFilter` as the new filter (the `[false, metaFilter]`
return). The filter state is therefore two-valued. -/

/-- Filter state of the message fetcher: still skipping to the given meta
id, or the permanent pass-all `metaFilter`. -/
inductive SkipFilter where
  | skipping (skipToMetaId : String)
  | passing
  deriving Repr, DecidableEq

/-- One filter application, as the source closure computes it: the kept
flag together with the filter in force afterwards. -/
def skipFilterStep (f : SkipFilter) (message : ChunkedMessage) :
    Bool × SkipFilter :=
  match f with
  | .passing => (true, .passing)
  | .skipping skipToMetaId =>
    if (message.meta.map ChunkedMessage_Meta.id) = some skipToMetaId then
      (false, .passing)
    else
      (false, .skipping skipToMetaId)

/-- The filter installed at creation: pass-all when `skipToMetaId` is
absent, otherwise the skip filter. -/
def initialSkipFilter (skipToMetaId : Option String) : SkipFilter :=
  match skipToMetaId with
  | none => .passing
  | some id => .skipping id

/-- The fetcher's channel right after `AsyncIteratorSet.create`. -/
def messageFetcherInit (skipToMetaId : Option String) (E : Type) :
    IterSet SkipFilter ChunkedMessage E :=
  IterSet.create (initialSkipFilter skipToMetaId)

/-- The inner loop over one segment's `ChunkedMessage` stream:
`iteratorSet.enqueue(message); if (checkCloseMessage(message)) return;`.
Returns the channel state plus whether the early `return` was taken. -/
def messageSegmentLoop {E : Type} (s : IterSet SkipFilter ChunkedMessage E) :
    List ChunkedMessage → IterSet SkipFilter ChunkedMessage E × Bool
  | [] => (s, false)
  | m :: rest =>
    let s1 := s.enqueue skipFilterStep m
    if checkCloseMessage (some m) then (s1, true)
    else messageSegmentLoop s1 rest

/-- The outer loop over the segments delivered by the entry fetcher. An
early return from the inner loop abandons the remaining segments. -/
def messageSegmentsLoop {E : Type} (s : IterSet SkipFilter ChunkedMessage E) :
    List (List ChunkedMessage) → IterSet SkipFilter ChunkedMessage E
  | [] => s
  | seg :: rest =>
    let r := messageSegmentLoop s seg
    if r.2 then r.1 else messageSegmentsLoop r.1 rest

/-- The whole fetcher run on the decoded message streams of the segments it
receives, ending with the `iteratorSet.close()` of the `finally` block. -/
def runMessageFetcher (skipToMetaId : Option String) {E : Type}
    (segments : List (List ChunkedMessage)) :
    IterSet SkipFilter ChunkedMessage E :=
  (messageSegmentsLoop (messageFetcherInit skipToMetaId E) segments).close

/-- One segment's worth of consumed messages: the whole segment, or the
prefix through the first close message, plus whether the early return was
taken. -/
def consumeSegment : List ChunkedMessage → List ChunkedMessage × Bool
  | [] => ([], false)
  | m :: ms =>
    if checkCloseMessage (some m) then ([m], true)
    else
      let r := consumeSegment ms
      (m :: r.1, r.2)

/-- The list of messages the fetcher actually reads from the segment
streams before stopping (the early `return` skips the rest of the current
segment and every later segment). -/
def consumedMessages : List (List ChunkedMessage) → List ChunkedMessage
  | [] => []
  | seg :: rest =>
    match consumeSegment seg with
    | (c, true) => c
    | (c, false) => c ++ consumedMessages rest

/-- Keep elements up to and including the first one satisfying `p`. -/
def takeThroughFirst {T : Type} (p : T → Bool) : List T → List T
  | [] => []
  | x :: xs => if p x then [x] else x :: takeThroughFirst p xs

/-! ## The entry fetcher (createEntryFetcher, src/api/NicoliveUtility.ts) -/

/-- A `MessageSegment` entry payload: the fetch URI (the `from`/`until`
fields are not read by the engine). -/
structure MessageSegment where
  uri : String
  deriving Repr, DecidableEq

/-- A `BackwardSegment` entry payload: optional segment and snapshot URIs. -/
structure BackwardSegment where
  segment : Option String
  snapshot : Option String
  deriving Repr, DecidableEq

/-- One `ChunkedEntry` as classified by the loop on `entry.case`. -/
inductive ChunkedEntry where
  | next (at_ : Int)
  | segment (value : MessageSegment)
  | backward (value : BackwardSegment)
  | previous (value : MessageSegment)
  deriving Repr, DecidableEq

/-- The `at` parameter of an entry fetch: a UNIX-seconds value or "now". -/
inductive NicoliveEntryAt where
  | now
  | at_ (sec : Int)
  deriving Repr, DecidableEq

/-- The mutable state of `createEntryFetcher` that the entry loop touches.
`emitted` stands for the contents pushed into the fetcher's `iteratorSet`
(it has no filter, so every enqueue while iterating is queued). -/
structure EntryFetcherState where
  receivedSegment : Bool
  lastEntryAt : NicoliveEntryAt
  currentEntryAt : Option NicoliveEntryAt
  backwardSegmentUri : Option String
  backwardSnapshotUri : Option String
  emitted : List MessageSegment
  deriving Repr, DecidableEq

/-- The body of the entry loop: one entry. `backwardSegmentUri ??= ...`
only writes when the stored value is still `undefined`. Note that
`receivedSegment` is declared outside the refetch loop and is never reset. -/
def processEntry (s : EntryFetcherState) : ChunkedEntry → EntryFetcherState
  | .next at_ =>
    { s with currentEntryAt := some (.at_ at_), lastEntryAt := .at_ at_ }
  | .segment value =>
    { s with receivedSegment := true, emitted := s.emitted ++ [value] }
  | .backward value =>
    if s.receivedSegment then s
    else
      { s with
        backwardSegmentUri := s.backwardSegmentUri.orElse fun _ => value.segment,
        backwardSnapshotUri := s.backwardSnapshotUri.orElse fun _ => value.snapshot }
  | .previous value =>
    if s.receivedSegment then s
    else { s with emitted := s.emitted ++ [value] }

/-- One whole entry fetch: `curretnEntryAt = undefined;` then the entry
loop over the stream of that fetch. -/
def processEntryFetch (s : EntryFetcherState) (entries : List ChunkedEntry) :
    EntryFetcherState :=
  entries.foldl processEntry { s with currentEntryAt := none }

/-- The refetch loop: each successive entry fetch happens only if the
previous one set `curretnEntryAt` via a `next` entry
(`if (curretnEntryAt == null) break;`). The input lists are the entry
streams the server serves for the successive fetches. -/
def runEntryFetcherFrom (s : EntryFetcherState) :
    List (List ChunkedEntry) → EntryFetcherState
  | [] => s
  | entries :: rest =>
    let s1 := processEntryFetch s entries
    match s1.currentEntryAt with
    | none => s1
    | some _ => runEntryFetcherFrom s1 rest

/-- Initial state of `createEntryFetcher` for a given starting `at`. -/
def entryFetcherInit (entryAt : NicoliveEntryAt) : EntryFetcherState :=
  { receivedSegment := false
    lastEntryAt := entryAt
    currentEntryAt := some entryAt
    backwardSegmentUri := none
    backwardSnapshotUri := none
    emitted := [] }

def runEntryFetcher (entryAt : NicoliveEntryAt)
    (fetches : List (List ChunkedEntry)) : EntryFetcherState :=
  runEntryFetcherFrom (entryFetcherInit entryAt) fetches

/-! ## Backward message fetching (NicoliveMessageServer.fetchBackwardMessages,
src/api/NicoliveMessageServer.ts)

The HTTP fetch plus `protobuf.fromBinary(PackedSegmentSchema, body)` of one
page is modelled as `server : String → Option PackedSegment`; `none` means
the body fails to decode (truncated frame), which in the source raises an
exception. The only awaits inside the loop are the page fetch and the
`sleep(delayMs)` between pages, so a caller-initiated abort can fire at
page boundaries; `abortAt = some k` means the abort signal becomes aborted
after `k` pages have been decoded, making the next fetch (or the sleep
before it) reject with an `AbortError`. `isAbortError` is true exactly for
that case, so the `catch` swallows it; any other exception is re-thrown and
the returned promise rejects. -/

structure PackedSegment where
  messages : List ChunkedMessage
  next : Option String
  snapshot : Option String
  deriving Repr, DecidableEq

/-- `Number.MAX_SAFE_INTEGER`, substituted for non-positive
`maxSegmentCount`. -/
def MAX_SAFE_INTEGER : Nat := 2 ^ 53 - 1

/-- Outcome of the `fetchBackwardMessages` promise: resolution with the
flattened batch and the two URIs of the last decoded page, or rejection
with the decode error of the named page. -/
inductive BackwardResult where
  | resolved (messages : List ChunkedMessage)
      (segmentUri snapshotUri : Option String)
  | rejected (failedUri : String)
  deriving Repr, DecidableEq

/-- The `while (true)` walk. State carried between iterations: the pages
decoded so far (`buf`, fetch order), the URI about to be fetched, and the
`segmentUri`/`snapshotUri` locals. `fuel` bounds the recursion; the loop
itself stops no later than after `maxSegmentCount` pages because `buf`
grows by one page per iteration, so the top level passes
`fuel = maxSegmentCount` and the bound is never the reason it stops. -/
def backwardWalk (server : String → Option PackedSegment) (isSnapshot : Bool)
    (maxSegmentCount : Nat) (abortAt : Option Nat) :
    Nat → String → List (List ChunkedMessage) → Option String →
    Option String → BackwardResult
  | fuel, uri, buf, segmentUri, snapshotUri =>
    if abortAt = some buf.length then
      -- the fetch (or the sleep directly before it) rejects with an
      -- AbortError; the catch sees isAbortError = true and falls through
      -- to `return \x7b messages: buf.reverse().flat(), ... \x7d`
      .resolved buf.reverse.flatten segmentUri snapshotUri
    else
      match server uri with
      | none => .rejected uri
      | some packed =>
        let segmentUri1 := packed.next
        let snapshotUri1 := packed.snapshot
        let nextUri := if isSnapshot then snapshotUri1 else segmentUri1
        let buf1 := buf ++ [packed.messages]
        match nextUri with
        | none => .resolved buf1.reverse.flatten segmentUri1 snapshotUri1
        | some nextUri1 =>
          if maxSegmentCount ≤ buf1.length then
            .resolved buf1.reverse.flatten segmentUri1 snapshotUri1
          else
            match fuel with
            | 0 => .rejected uri
            | fuel1 + 1 =>
              backwardWalk server isSnapshot maxSegmentCount abortAt
                fuel1 nextUri1 buf1 segmentUri1 snapshotUri1

/-- `NicoliveMessageServer.fetchBackwardMessages`. `delayMs` has no
observable effect on the result and is omitted. -/
def fetchBackwardMessages (server : String → Option PackedSegment)
    (backwardUri : String) (maxSegmentCount : Int) (isSnapshot : Bool)
    (abortAt : Option Nat) : BackwardResult :=
  let maxSeg : Nat :=
    if maxSegmentCount ≤ 0 then MAX_SAFE_INTEGER else maxSegmentCount.toNat
  backwardWalk server isSnapshot maxSeg abortAt maxSeg backwardUri [] none none

/-! ## The connector's getBackwardMessages (src/api/NicoliveUtility.ts)

```
if (fetchingBackwardSegment) return undefined;
const backwardUri = isSnapshot ? backwardSnapshotUri : backwardSegmentUri;
if (backwardUri == null) return;
fetchingBackwardSegment = true;
const abortController = new AbortController();
const messagePromise = (async () =>; ...)();
fetchingBackwardSegment = false;
return \x7b abortController, messagePromise \x7d;
```

The async IIFE suspends at its first `await` (the network fetch inside
`NicoliveMessageServer.fetchBackwardMessages`), after which the caller's
remaining synchronous statements run; so by the time the call returns,
`fetchingBackwardSegment` is `false` again while the fetch is still in
flight, and `backwardSegmentUri`/`backwardSnapshotUri` are only assigned
later, when the promise resolves. `getBackwardMessagesCall` is the state
observed synchronously at return time. -/

/-- The connector state read and written synchronously by
`getBackwardMessages`. -/
structure BackwardFlightState where
  fetchingBackwardSegment : Bool
  backwardSegmentUri : Option String
  backwardSnapshotUri : Option String
  deriving Repr, DecidableEq

/-- What one call returns: `undefined`, or the
`\x7b abortController, messagePromise \x7d` pair (with the fetch now in
flight). -/
inductive BackwardCallResult where
  | undef
  | started
  deriving Repr, DecidableEq

/-- One synchronous `getBackwardMessages(delayMs, maxSegmentCount,
isSnapshot)` call: result and the connector state at the moment the call
returns (the in-flight fetch has not resolved yet). -/
def getBackwardMessagesCall (s : BackwardFlightState) (isSnapshot : Bool) :
    BackwardCallResult × BackwardFlightState :=
  if s.fetchingBackwardSegment then (.undef, s)
  else
    match (if isSnapshot then s.backwardSnapshotUri else s.backwardSegmentUri) with
    | none => (.undef, s)
    | some _ =>
      -- fetchingBackwardSegment = true; start the async IIFE (suspends at
      -- its first await); fetchingBackwardSegment = false
      (.started, { s with fetchingBackwardSegment := false })

/-! ## The watch channel (NicoliveWsClient.onMessage and
NicoliveWs.connectWaitOpened / sendKeepSeatAndPong) -/

/-- Inbound watch-channel frame types the keep-alive logic distinguishes;
every other type is `other`. -/
inductive WsReceive where
  | ping
  | seat
  | other
  deriving Repr, DecidableEq

/-- Outbound frames relevant to connection keep-alive and comment posting. -/
inductive WsSend where
  | startWatching
  | pong
  | keepSeat
  | postComment (vpos : Int) (text : String) (isAnonymous : Bool)
  deriving Repr, DecidableEq

/-- Frames the `onMessage` handler transmits, synchronously, while
servicing one inbound frame: on `ping` it sends `\x7btype:"pong"\x7d` then
`\x7btype:"keepSeat"\x7d` (`sendKeepSeatAndPong` sends pong first); on
`seat` it does nothing (the keep-alive interval is not started); no other
inbound frame causes a send. -/
def onMessageSends : WsReceive → List WsSend
  | .ping => [.pong, .keepSeat]
  | .seat => []
  | .other => []

/-- Events driving the ws client's outbound traffic: the socket `open`
event (which sends `startWatching`) and each inbound frame, serviced one at
a time by the single-threaded handler. -/
inductive WsEvent where
  | opened
  | message (m : WsReceive)
  deriving Repr, DecidableEq

def wsEventSends : WsEvent → List WsSend
  | .opened => [.startWatching]
  | .message m => onMessageSends m

/-- The outbound frame sequence produced by servicing a sequence of events
in order; frames sent while servicing one event precede any frame of later
events. There is no timer-driven send site in the client. -/
def wsOutboundTrace (events : List WsEvent) : List WsSend :=
  (events.map wsEventSends).flatten

/-! ## postComment (NicoliveWs postComment / NicoliveClient.postComment)

`vpos: Math.round((Date.now() - vposBaseTime) / 10)` where `vposBaseTime`
is `new Date(messageServer.data.vposBaseTime).getTime()` (epoch ms). -/

/-- JS `Math.round` on an exact rational: floor of `x + 1/2` (ties round
toward positive infinity). -/
def jsMathRound (x : ℚ) : ℤ := ⌊x + 1 / 2⌋

/-- The outbound frame built by `postComment(text, isAnonymous)` at
wall-clock `now` (epoch ms), with `vposBaseTime` the parsed epoch-ms base. -/
def postCommentFrame (now vposBaseTime : Int) (text : String)
    (isAnonymous : Bool) : WsSend :=
  .postComment (jsMathRound (((now - vposBaseTime : Int) : ℚ) / 10))
    text isAnonymous

/-! ## Auxiliary notions used to state the properties -/

/-- A producer-side operation on an `AsyncIteratorSet`. -/
inductive ChannelOp (T E : Type) where
  | enqueueOp (v : T)
  | throwOp (e : E)
  | closeOp
  deriving Repr, DecidableEq

def applyOp {F T E : Type} (step : F → T → Bool × F) (s : IterSet F T E) :
    ChannelOp T E → IterSet F T E
  | .enqueueOp v => s.enqueue step v
  | .throwOp e => s.throwErr e
  | .closeOp => s.close

def applyOps {F T E : Type} (step : F → T → Bool × F) (s : IterSet F T E)
    (ops : List (ChannelOp T E)) : IterSet F T E :=
  ops.foldl (applyOp step) s

/-- The values a filter keeps out of a list, together with how the filter
state evolves. -/
def keptValues {F T : Type} (step : F → T → Bool × F) (f : F) :
    List T → List T
  | [] => []
  | v :: rest =>
    let r := step f v
    if r.1 then v :: keptValues step r.2 rest else keptValues step r.2 rest

/-- The filter state in force after a list of values has been offered. -/
def filterAfter {F T : Type} (step : F → T → Bool × F) (f : F) :
    List T → F
  | [] => f
  | v :: rest => filterAfter step (step f v).2 rest

/-- The meta ids present in a message list. -/
def metaIds (l : List ChunkedMessage) : List String :=
  l.filterMap fun m => m.meta.map ChunkedMessage_Meta.id

/-- Every element satisfying `p` sits at the very end of the list. -/
def LastOnly {T : Type} (p : T → Bool) (l : List T) : Prop :=
  ∀ xs x ys, l = xs ++ x :: ys → p x = true → ys = []

/-- The URI the backward walk follows out of a decoded page:
`isSnapshot ? packed.snapshot?.uri : packed.next?.uri`. -/
def selUri (isSnapshot : Bool) (p : PackedSegment) : Option String :=
  if isSnapshot then p.snapshot else p.next

/-- `BackwardChain server isSnapshot uri pages`: starting at `uri`, the
server serves exactly the pages `pages` (in fetch order) and the selected
URI of the last page is absent. -/
inductive BackwardChain (server : String → Option PackedSegment)
    (isSnapshot : Bool) : String → List PackedSegment → Prop where
  | last (uri : String) (p : PackedSegment)
      (hserve : server uri = some p) (hsel : selUri isSnapshot p = none) :
      BackwardChain server isSnapshot uri [p]
  | cons (uri uri1 : String) (p : PackedSegment) (ps : List PackedSegment)
      (hserve : server uri = some p)
      (hsel : selUri isSnapshot p = some uri1)
      (htail : BackwardChain server isSnapshot uri1 ps) :
      BackwardChain server isSnapshot uri (p :: ps)

/-- `BackwardChainFail server isSnapshot uri pages failUri`: starting at
`uri`, the pages `pages` decode in order, the selected URI after them is
`failUri`, and the body at `failUri` fails to decode. -/
inductive BackwardChainFail (server : String → Option PackedSegment)
    (isSnapshot : Bool) : String → List PackedSegment → String → Prop where
  | here (uri : String) (hserve : server uri = none) :
      BackwardChainFail server isSnapshot uri [] uri
  | cons (uri uri1 : String) (p : PackedSegment) (ps : List PackedSegment)
      (failUri : String)
      (hserve : server uri = some p)
      (hsel : selUri isSnapshot p = some uri1)
      (htail : BackwardChainFail server isSnapshot uri1 ps failUri) :
      BackwardChainFail server isSnapshot uri (p :: ps) failUri

/-- The backward `segmentUri`/`snapshotUri` locals after decoding a page
list, starting from given values: the last decoded page overwrites them. -/
def lastUris (segmentUri snapshotUri : Option String)
    (pages : List PackedSegment) : Option String × Option String :=
  match pages.getLast? with
  | none => (segmentUri, snapshotUri)
  | some p => (p.next, p.snapshot)

/-- A chat message carrying only a meta id, for concrete examples. -/
def exMsg (id : String) : ChunkedMessage :=
  { meta := some { id := id }, payload := .message }

/-- A program-ended state message, for concrete examples. -/
def exEndMsg : ChunkedMessage :=
  { meta := none,
    payload := .state { programStatus := some { state := .Ended } } }

/-- A two-page backward chain: page "a" = \x5bm1, m2\x5d with next = "b",
page "b" = \x5bm3\x5d with no next and a snapshot pointer. -/
def exServer : String → Option PackedSegment := fun uri =>
  if uri = "a" then
    some { messages := [exMsg "m1", exMsg "m2"], next := some "b",
           snapshot := none }
  else if uri = "b" then
    some { messages := [exMsg "m3"], next := none, snapshot := some "snap" }
  else none

/-- A backward chain whose second page is truncated: page "a" decodes and
points at "b", the body at "b" fails to decode. -/
def exServerTrunc : String → Option PackedSegment := fun uri =>
  if uri = "a" then
    some { messages := [exMsg "m1", exMsg "m2"], next := some "b",
           snapshot := none }
  else none

/-! ## Lemmas about the channel state machine -/

theorem enqueue_of_finished {F T E : Type} (step : F → T → Bool × F)
    (s : IterSet F T E) (v : T) (h : s.state.isIterating = false) :
    s.enqueue step v = s := by
  simp [IterSet.enqueue, h]

theorem throwErr_of_finished {F T E : Type} (s : IterSet F T E) (e : E)
    (h : s.state.isIterating = false) : s.throwErr e = s := by
  simp [IterSet.throwErr, h]

theorem close_of_finished {F T E : Type} (s : IterSet F T E)
    (h : s.state.isIterating = false) : s.close = s := by
  simp [IterSet.close, h]

theorem applyOp_of_finished {F T E : Type} (step : F → T → Bool × F)
    (s : IterSet F T E) (op : ChannelOp T E)
    (h : s.state.isIterating = false) : applyOp step s op = s := by
  cases op with
  | enqueueOp v => exact enqueue_of_finished step s v h
  | throwOp e => exact throwErr_of_finished s e h
  | closeOp => exact close_of_finished s h

theorem applyOps_of_finished {F T E : Type} (step : F → T → Bool × F)
    (s : IterSet F T E) (ops : List (ChannelOp T E))
    (h : s.state.isIterating = false) : applyOps step s ops = s := by
  induction ops with
  | nil => rfl
  | cons op rest ih =>
    show applyOps step (applyOp step s op) rest = s
    rw [applyOp_of_finished step s op h, ih]

/-- Reads from a channel in the error state drain the queue and then keep
throwing the latched error. -/
theorem readAt_of_error {F T E : Type} (e : E) :
    ∀ (n : Nat) (s : IterSet F T E), s.state = .error e →
      s.readAt n = (match s.queue[n]? with
        | some v => ReadResult.value v
        | none => ReadResult.error e) := by
  intro n
  induction n with
  | zero =>
    intro s hs
    cases hq : s.queue with
    | nil => simp [IterSet.readAt, IterSet.next, hq, hs]
    | cons v rest => simp [IterSet.readAt, IterSet.next, hq]
  | succ n ih =>
    intro s hs
    cases hq : s.queue with
    | nil =>
      have hnext : (s.next).2 = s := by simp [IterSet.next, hq, hs]
      show ((s.next).2).readAt n = _
      rw [hnext, ih s hs, hq]
      simp
    | cons v rest =>
      have hnext : (s.next).2 = { s with queue := rest } := by
        simp [IterSet.next, hq]
      show ((s.next).2).readAt n = _
      rw [hnext, ih { s with queue := rest } hs]
      simp [hq]

/-- Reads from a closed channel drain the queue and then report
end-of-sequence forever. -/
theorem readAt_of_closed {F T E : Type} :
    ∀ (n : Nat) (s : IterSet F T E), s.state = .closed →
      s.readAt n = (match s.queue[n]? with
        | some v => ReadResult.value v
        | none => ReadResult.done) := by
  intro n
  induction n with
  | zero =>
    intro s hs
    cases hq : s.queue with
    | nil => simp [IterSet.readAt, IterSet.next, hq, hs]
    | cons v rest => simp [IterSet.readAt, IterSet.next, hq]
  | succ n ih =>
    intro s hs
    cases hq : s.queue with
    | nil =>
      have hnext : (s.next).2 = s := by simp [IterSet.next, hq, hs]
      show ((s.next).2).readAt n = _
      rw [hnext, ih s hs, hq]
      simp
    | cons v rest =>
      have hnext : (s.next).2 = { s with queue := rest } := by
        simp [IterSet.next, hq]
      show ((s.next).2).readAt n = _
      rw [hnext, ih { s with queue := rest } hs]
      simp [hq]

/-- `enqueueAll` on an iterating channel: the state stays iterating, the
queue grows by the filtered values, and the filter evolves by
`filterAfter`. -/
theorem enqueueAll_iterating {F T E : Type} (step : F → T → Bool × F) :
    ∀ (l : List T) (s : IterSet F T E), s.state = .iterating →
      s.enqueueAll step l =
        { state := .iterating,
          queue := s.queue ++ keptValues step s.filt l,
          filt := filterAfter step s.filt l } := by
  intro l
  induction l with
  | nil => intro s hs; simp [IterSet.enqueueAll, keptValues, filterAfter, ← hs]
  | cons v rest ih =>
    intro s hs
    have hit : s.state.isIterating = true := by rw [hs]; rfl
    show IterSet.enqueueAll step (s.enqueue step v) rest = _
    by_cases hkeep : (step s.filt v).1
    · have henq : s.enqueue step v =
          { s with queue := s.queue ++ [v], filt := (step s.filt v).2 } := by
        simp [IterSet.enqueue, hit, hkeep]
      rw [henq,
        ih { s with queue := s.queue ++ [v], filt := (step s.filt v).2 } hs]
      simp [keptValues, filterAfter, hkeep]
    · have henq : s.enqueue step v = { s with filt := (step s.filt v).2 } := by
        simp [IterSet.enqueue, hit, hkeep]
      rw [henq, ih { s with filt := (step s.filt v).2 } hs]
      simp [keptValues, filterAfter, hkeep]

/-! ## Theorems for the claims -/

/-- C10: once an `AsyncIteratorSet` has left the iterating state (via
`close()` or `throw()`), every further `enqueue`, `throw` or `close` is a
no-op: no value is queued, the state (including a latched error) never
changes again — for any single operation and for any sequence of
operations. -/
theorem asyncIteratorSet_terminal_latched {F T E : Type}
    (step : F → T → Bool × F) (s : IterSet F T E)
    (h : s.state.isIterating = false) :
    (∀ v, s.enqueue step v = s) ∧ (∀ e, s.throwErr e = s) ∧
      s.close = s ∧ ∀ ops, applyOps step s ops = s := by
  exact ⟨fun v => enqueue_of_finished step s v h,
    fun e => throwErr_of_finished s e h,
    close_of_finished s h,
    fun ops => applyOps_of_finished step s ops h⟩

theorem asyncIteratorSet_terminal_latched_witness :
    applyOps (fun (_ : Unit) (_ : Nat) => (true, ()))
        (⟨.error 7, [1], ()⟩ : IterSet Unit Nat Nat)
        [.enqueueOp 3, .closeOp, .throwOp 9, .closeOp] =
      ⟨.error 7, [1], ()⟩ :=
  (asyncIteratorSet_terminal_latched (fun (_ : Unit) (_ : Nat) => (true, ()))
    (⟨.error 7, [1], ()⟩ : IterSet Unit Nat Nat) (by rfl)).2.2.2 _

/-- C7 counterexample: with a value still queued, `throw(e)` does not make
the very next consumer read fail — the read returns the queued value. -/
theorem throw_next_read_returns_queued_value :
    (((((IterSet.create () : IterSet Unit Nat Nat).enqueue
            (fun _ _ => (true, ())) 7).throwErr 99).next).1 =
        ReadResult.value 7) ∧
      (((((IterSet.create () : IterSet Unit Nat Nat).enqueue
            (fun _ _ => (true, ())) 7).throwErr 99).next).1 ≠
        ReadResult.error 99) := by
  constructor
  · rfl
  · decide

/-- C7 (amended): after `throw(e)` on an open channel, the error is
latched: no further value can be enqueued, consumer reads first drain the
values queued before the throw (in FIFO order) and every read after that
fails with `e`; in particular, if the queue was empty at the throw, the
very next read fails with `e`. -/
theorem asyncIteratorSet_throw_latches_error {F T E : Type}
    (step : F → T → Bool × F) (s : IterSet F T E) (e : E)
    (h : s.state = .iterating) :
    (∀ v, (s.throwErr e).enqueue step v = s.throwErr e) ∧
      (∀ n, (s.throwErr e).readAt n = (match s.queue[n]? with
        | some v => ReadResult.value v
        | none => ReadResult.error e)) ∧
      (s.queue = [] → ((s.throwErr e).next).1 = ReadResult.error e) := by
  have hit : s.state.isIterating = true := by rw [h]; rfl
  have hthrow : s.throwErr e = { s with state := .error e } := by
    simp [IterSet.throwErr, hit]
  refine ⟨?_, ?_, ?_⟩
  · intro v
    rw [hthrow]
    exact enqueue_of_finished step _ v rfl
  · intro n
    rw [hthrow]
    exact readAt_of_error e n _ rfl
  · intro hq
    rw [hthrow]
    simp [IterSet.next, hq]

theorem asyncIteratorSet_throw_latches_error_witness :
    ((⟨.iterating, [5], ()⟩ : IterSet Unit Nat Nat).throwErr 42).readAt 1 =
      ReadResult.error 42 := by
  have h := (asyncIteratorSet_throw_latches_error
    (fun (_ : Unit) (_ : Nat) => (true, ()))
    (⟨.iterating, [5], ()⟩ : IterSet Unit Nat Nat) 42 rfl).2.1 1
  simpa using h

/-- C2 (evaluation of the code at the failing input): with a backward URI
available and no fetch in flight, a first `getBackwardMessages` call
starts a fetch, and a second call made while that fetch is still in
flight also starts one instead of returning `undefined` — the
`fetchingBackwardSegment` flag is reset synchronously before the call
returns, so it never guards anything. -/
theorem getBackwardMessages_secondCallInFlight :
    ((getBackwardMessagesCall ⟨false, some "u", none⟩ false).1 =
        BackwardCallResult.started) ∧
      ((getBackwardMessagesCall
          (getBackwardMessagesCall ⟨false, some "u", none⟩ false).2
          false).1 = BackwardCallResult.started) :=
  ⟨rfl, rfl⟩

/-- C9: servicing a `ping` frame transmits exactly `pong` then `keepSeat`,
in that order, before any frame sent while servicing a later inbound
frame; and `keepSeat`/`pong` are sent only in response to `ping` (there is
no timer-driven send site). -/
theorem ping_sends_pong_then_keepSeat (pre post : List WsEvent) :
    (wsOutboundTrace (pre ++ .message .ping :: post) =
        wsOutboundTrace pre ++ [.pong, .keepSeat] ++ wsOutboundTrace post) ∧
      (∀ e : WsEvent, WsSend.keepSeat ∈ wsEventSends e → e = .message .ping) ∧
      (∀ e : WsEvent, WsSend.pong ∈ wsEventSends e → e = .message .ping) := by
  refine ⟨?_, ?_, ?_⟩
  · simp [wsOutboundTrace, wsEventSends, onMessageSends]
  · intro e hmem
    cases e with
    | opened => simp [wsEventSends] at hmem
    | message m =>
      cases m with
      | ping => rfl
      | seat => simp [wsEventSends, onMessageSends] at hmem
      | other => simp [wsEventSends, onMessageSends] at hmem
  · intro e hmem
    cases e with
    | opened => simp [wsEventSends] at hmem
    | message m =>
      cases m with
      | ping => rfl
      | seat => simp [wsEventSends, onMessageSends] at hmem
      | other => simp [wsEventSends, onMessageSends] at hmem

theorem ping_sends_pong_then_keepSeat_witness :
    (wsOutboundTrace [.opened, .message .ping, .message .seat] =
        [.startWatching, .pong, .keepSeat]) ∧
      (WsEvent.message .ping = WsEvent.message .ping) := by
  constructor
  · have h := (ping_sends_pong_then_keepSeat [.opened] [.message .seat]).1
    rw [show ([.opened] ++ .message .ping :: [.message .seat] :
        List WsEvent) = [.opened, .message .ping, .message .seat] from rfl]
      at h
    rw [h]
    rfl
  · exact (ping_sends_pong_then_keepSeat [] []).2.1 (.message .ping)
      (by decide)

/-- C8: the `postComment` frame sent at wall-clock `now` carries
`vpos = Math.round((now − vposBaseTime) / 10)`; equivalently, in integer
arithmetic, `vpos = (now − vposBaseTime + 5) / 10` rounded toward
negative infinity. -/
theorem postComment_vpos_correct (now base : Int) (text : String)
    (anon : Bool) :
    (postCommentFrame now base text anon =
        .postComment (jsMathRound (((now - base : Int) : ℚ) / 10))
          text anon) ∧
      (postCommentFrame now base text anon =
        .postComment ((now - base + 5) / 10) text anon) := by
  refine ⟨rfl, ?_⟩
  unfold postCommentFrame jsMathRound
  congr 1
  have hq : ((now - base : Int) : ℚ) / 10 + 1 / 2 =
      ((now - base + 5 : Int) : ℚ) / ((10 : ℕ) : ℚ) := by
    push_cast
    ring
  rw [hq, Rat.floor_intCast_div_natCast]
  norm_num

/-! ## Lemmas about the skip-to-meta-id filter -/

theorem keptValues_append {F T : Type} (step : F → T → Bool × F) :
    ∀ (a b : List T) (f : F),
      keptValues step f (a ++ b) =
        keptValues step f a ++ keptValues step (filterAfter step f a) b := by
  intro a
  induction a with
  | nil => intro b f; simp [keptValues, filterAfter]
  | cons v rest ih =>
    intro b f
    by_cases hkeep : (step f v).1 <;>
      simp [keptValues, filterAfter, hkeep, ih]

theorem filterAfter_append {F T : Type} (step : F → T → Bool × F) :
    ∀ (a b : List T) (f : F),
      filterAfter step f (a ++ b) =
        filterAfter step (filterAfter step f a) b := by
  intro a
  induction a with
  | nil => intro b f; simp [filterAfter]
  | cons v rest ih => intro b f; simp [filterAfter, ih]

theorem keptValues_passing (l : List ChunkedMessage) :
    keptValues skipFilterStep .passing l = l := by
  induction l with
  | nil => rfl
  | cons m rest ih => simp [keptValues, skipFilterStep, ih]

theorem filterAfter_passing (l : List ChunkedMessage) :
    filterAfter skipFilterStep .passing l = .passing := by
  induction l with
  | nil => rfl
  | cons m rest ih => simp [filterAfter, skipFilterStep, ih]

theorem keptValues_skipping_no_match (skipId : String) :
    ∀ pre : List ChunkedMessage,
      (∀ x ∈ pre, x.meta.map ChunkedMessage_Meta.id ≠ some skipId) →
      keptValues skipFilterStep (.skipping skipId) pre = [] ∧
        filterAfter skipFilterStep (.skipping skipId) pre =
          .skipping skipId := by
  intro pre
  induction pre with
  | nil => intro _; exact ⟨rfl, rfl⟩
  | cons x rest ih =>
    intro h
    have hx : x.meta.map ChunkedMessage_Meta.id ≠ some skipId :=
      h x (by simp)
    have hrest := ih fun y hy => h y (by simp [hy])
    constructor
    · simp [keptValues, skipFilterStep, hx, hrest.1]
    · simp [filterAfter, skipFilterStep, hx, hrest.2]

theorem metaIds_append (a b : List ChunkedMessage) :
    metaIds (a ++ b) = metaIds a ++ metaIds b := by
  simp [metaIds]

/-- C1: with `skipToMetaId` configured, the consumer-facing channel drops
every incoming message up to and including the first one whose meta id
equals `skipToMetaId`, delivers every message enqueued after that match,
and installs the permanent pass-all filter at the match; consequently,
after a reconnect that sets `skipToMetaId` to the last delivered meta id,
no already-delivered meta id is delivered again as long as the new stream
repeats old ids only up to the match (in particular when meta ids are
unique: old ids all lie in the overlap prefix). -/
theorem skipToMetaId_filter {E : Type} (skipId : String)
    (msgs pre post : List ChunkedMessage) (m : ChunkedMessage)
    (hsplit : msgs = pre ++ m :: post)
    (hm : m.meta.map ChunkedMessage_Meta.id = some skipId)
    (hpre : ∀ x ∈ pre, x.meta.map ChunkedMessage_Meta.id ≠ some skipId) :
    (((messageFetcherInit (some skipId) E).enqueueAll
        skipFilterStep msgs).queue = post) ∧
      (((messageFetcherInit (some skipId) E).enqueueAll
        skipFilterStep msgs).filt = .passing) ∧
      (∀ oldIds : List String, (metaIds msgs).Nodup →
        (∀ i ∈ oldIds, i ∈ metaIds (pre ++ [m])) →
        ∀ i ∈ oldIds, i ∉ metaIds post) := by
  have hinit : (messageFetcherInit (some skipId) E).state = .iterating := rfl
  have hrun := enqueueAll_iterating skipFilterStep msgs
    (messageFetcherInit (some skipId) E) hinit
  have hfilt0 : (messageFetcherInit (some skipId) E).filt =
      .skipping skipId := rfl
  have hq0 : (messageFetcherInit (some skipId) E).queue = [] := rfl
  have hpre2 := keptValues_skipping_no_match skipId pre hpre
  have hkept : keptValues skipFilterStep (.skipping skipId) msgs = post := by
    rw [hsplit, keptValues_append, hpre2.1, hpre2.2]
    show keptValues skipFilterStep (.skipping skipId) (m :: post) = post
    simp [keptValues, skipFilterStep, hm, keptValues_passing]
  have hafter : filterAfter skipFilterStep (.skipping skipId) msgs =
      .passing := by
    rw [hsplit, filterAfter_append, hpre2.2]
    show filterAfter skipFilterStep (.skipping skipId) (m :: post) = .passing
    simp [filterAfter, skipFilterStep, hm, filterAfter_passing]
  refine ⟨?_, ?_, ?_⟩
  · rw [hrun]
    simp [hfilt0, hq0, hkept]
  · rw [hrun]
    simp [hfilt0, hafter]
  · intro oldIds hnodup hsub i hi hipost
    have hassoc : msgs = (pre ++ [m]) ++ post := by simp [hsplit]
    rw [hassoc, metaIds_append] at hnodup
    have hdisj := (List.nodup_append.mp hnodup).2.2
    exact hdisj (hsub i hi) hipost

theorem skipToMetaId_filter_witness :
    ((messageFetcherInit (some "b") Unit).enqueueAll skipFilterStep
        [exMsg "a", exMsg "b", exMsg "c", exMsg "d"]).queue =
      [exMsg "c", exMsg "d"] := by
  have h := (skipToMetaId_filter (E := Unit) "b"
    [exMsg "a", exMsg "b", exMsg "c", exMsg "d"]
    [exMsg "a"] [exMsg "c", exMsg "d"] (exMsg "b")
    rfl rfl (by decide)).1
  exact h

/-! ## Lemmas about the message fetcher loop and program-ended stop -/

theorem consumeSegment_eq (seg : List ChunkedMessage) :
    consumeSegment seg =
      (takeThroughFirst (fun x => checkCloseMessage (some x)) seg,
        seg.any fun x => checkCloseMessage (some x)) := by
  induction seg with
  | nil => rfl
  | cons m rest ih =>
    by_cases hm : checkCloseMessage (some m) <;>
      simp [consumeSegment, takeThroughFirst, hm, ih]

theorem takeThroughFirst_of_no_match {T : Type} (p : T → Bool) :
    ∀ l : List T, l.any p = false → takeThroughFirst p l = l := by
  intro l
  induction l with
  | nil => intro _; rfl
  | cons x xs ih =>
    intro h
    simp only [List.any_cons, Bool.or_eq_false_iff] at h
    simp [takeThroughFirst, h.1, ih h.2]

theorem takeThroughFirst_append {T : Type} (p : T → Bool) :
    ∀ a b : List T,
      takeThroughFirst p (a ++ b) =
        if a.any p then takeThroughFirst p a
        else a ++ takeThroughFirst p b := by
  intro a
  induction a with
  | nil => intro b; simp [takeThroughFirst]
  | cons x xs ih =>
    intro b
    by_cases hx : p x
    · simp [takeThroughFirst, hx]
    · by_cases hxs : xs.any p <;>
        simp [takeThroughFirst, hx, hxs, ih]

theorem consumedMessages_eq (segments : List (List ChunkedMessage)) :
    consumedMessages segments =
      takeThroughFirst (fun x => checkCloseMessage (some x))
        segments.flatten := by
  induction segments with
  | nil => rfl
  | cons seg rest ih =>
    rw [List.flatten_cons,
      takeThroughFirst_append (fun x => checkCloseMessage (some x))]
    by_cases hseg : seg.any fun x => checkCloseMessage (some x)
    · simp [consumedMessages, consumeSegment_eq, hseg]
    · simp only [Bool.not_eq_true] at hseg
      simp [consumedMessages, consumeSegment_eq, hseg,
        takeThroughFirst_of_no_match _ seg hseg, ih]

theorem messageSegmentLoop_eq {E : Type} :
    ∀ (seg : List ChunkedMessage) (s : IterSet SkipFilter ChunkedMessage E),
      messageSegmentLoop s seg =
        (s.enqueueAll skipFilterStep (consumeSegment seg).1,
          (consumeSegment seg).2) := by
  intro seg
  induction seg with
  | nil => intro s; rfl
  | cons m rest ih =>
    intro s
    by_cases hm : checkCloseMessage (some m)
    · simp [messageSegmentLoop, consumeSegment, hm, IterSet.enqueueAll]
    · simp [messageSegmentLoop, consumeSegment, hm, ih, IterSet.enqueueAll]

theorem messageSegmentsLoop_eq {E : Type} :
    ∀ (segments : List (List ChunkedMessage))
      (s : IterSet SkipFilter ChunkedMessage E),
      messageSegmentsLoop s segments =
        s.enqueueAll skipFilterStep (consumedMessages segments) := by
  intro segments
  induction segments with
  | nil => intro s; rfl
  | cons seg rest ih =>
    intro s
    simp only [messageSegmentsLoop, messageSegmentLoop_eq]
    rcases hcs : consumeSegment seg with ⟨c, b⟩
    cases b with
    | true => simp [consumedMessages, hcs]
    | false =>
      simp [consumedMessages, hcs, ih, IterSet.enqueueAll,
        List.foldl_append]

theorem LastOnly_tail {T : Type} (p : T → Bool) (a : T) (l : List T)
    (h : LastOnly p (a :: l)) : LastOnly p l := by
  intro xs x ys hsplit hp
  exact h (a :: xs) x ys (by simp [hsplit]) hp

theorem LastOnly_of_sublist {T : Type} (p : T → Bool) :
    ∀ {l1 l2 : List T}, l1.Sublist l2 → LastOnly p l2 → LastOnly p l1 := by
  intro l1 l2 h
  induction h with
  | slnil =>
    intro _ xs x ys hsplit _
    rcases xs with _ | ⟨a, xs⟩ <;> simp at hsplit
  | cons a hsub ih =>
    intro h2
    exact ih (LastOnly_tail p a _ h2)
  | cons₂ a hsub ih =>
    intro h2
    intro xs x ys hsplit hp
    rcases xs with _ | ⟨b, xs⟩
    · simp only [List.nil_append, List.cons.injEq] at hsplit
      have hl2 : _ = ([] : List _) := h2 [] a _ rfl (hsplit.1 ▸ hp)
      subst hl2
      have : ys.Sublist ([] : List _) := hsplit.2 ▸ hsub
      exact List.sublist_nil.mp this
    · simp only [List.cons_append, List.cons.injEq] at hsplit
      exact ih (LastOnly_tail p a _ h2) xs x ys hsplit.2 hp

theorem LastOnly_takeThroughFirst {T : Type} (p : T → Bool) :
    ∀ l : List T, LastOnly p (takeThroughFirst p l) := by
  intro l
  induction l with
  | nil =>
    intro xs x ys hsplit _
    rcases xs with _ | ⟨a, xs⟩ <;> simp [takeThroughFirst] at hsplit
  | cons a l ih =>
    by_cases ha : p a
    · intro xs x ys hsplit _
      simp only [takeThroughFirst, ha, if_pos] at hsplit
      rcases xs with _ | ⟨b, xs⟩
      · simp only [List.nil_append, List.cons.injEq] at hsplit
        exact hsplit.2.symm
      · simp only [List.cons_append, List.cons.injEq] at hsplit
        rcases hsplit with ⟨_, habs⟩
        exact absurd habs.symm (by simp)
    · intro xs x ys hsplit hp
      simp only [takeThroughFirst, ha, if_neg, Bool.false_eq_true,
        not_false_iff] at hsplit
      rcases xs with _ | ⟨b, xs⟩
      · simp only [List.nil_append, List.cons.injEq] at hsplit
        rw [← hsplit.1] at hp
        simp [hp] at ha
      · simp only [List.cons_append, List.cons.injEq] at hsplit
        exact ih xs x ys hsplit.2 hp

theorem keptValues_sublist {F T : Type} (step : F → T → Bool × F) :
    ∀ (l : List T) (f : F), (keptValues step f l).Sublist l := by
  intro l
  induction l with
  | nil => intro f; simp [keptValues]
  | cons v rest ih =>
    intro f
    by_cases hkeep : (step f v).1
    · simpa [keptValues, hkeep] using (ih (step f v).2).cons₂ v
    · simpa [keptValues, hkeep] using (ih (step f v).2).cons v

/-- The fetcher's final channel in closed form. -/
theorem runMessageFetcher_eq {E : Type} (skipToMetaId : Option String)
    (segments : List (List ChunkedMessage)) :
    runMessageFetcher skipToMetaId (E := E) segments =
      { state := .closed,
        queue := keptValues skipFilterStep
          (initialSkipFilter skipToMetaId) (consumedMessages segments),
        filt := filterAfter skipFilterStep
          (initialSkipFilter skipToMetaId) (consumedMessages segments) } := by
  unfold runMessageFetcher
  rw [messageSegmentsLoop_eq,
    enqueueAll_iterating skipFilterStep (consumedMessages segments)
      (messageFetcherInit skipToMetaId E) rfl]
  rfl

/-- C5: once a program-ended message (`payload = state`,
`programStatus.state = Ended`) has been delivered to the consumer-facing
iterator, it is the last delivered message: every read after it returns
end-of-sequence, and the fetcher consumed nothing from the segment
streams beyond that message (later messages of its segment and all later
segments are untouched). -/
theorem programEnded_stops_iterator {E : Type} (skipToMetaId : Option String)
    (segments : List (List ChunkedMessage)) (m : ChunkedMessage)
    (dpre dpost : List ChunkedMessage)
    (hclose : checkCloseMessage (some m) = true)
    (hdeliv : (runMessageFetcher skipToMetaId (E := E) segments).queue =
      dpre ++ m :: dpost) :
    dpost = [] ∧
      (∀ n, dpre.length + 1 ≤ n →
        (runMessageFetcher skipToMetaId (E := E) segments).readAt n =
          ReadResult.done) ∧
      consumedMessages segments =
        takeThroughFirst (fun x => checkCloseMessage (some x))
          segments.flatten := by
  have hfin := runMessageFetcher_eq (E := E) skipToMetaId segments
  have hlast : LastOnly (fun x => checkCloseMessage (some x))
      ((runMessageFetcher skipToMetaId (E := E) segments).queue) := by
    rw [hfin]
    refine LastOnly_of_sublist _ (keptValues_sublist skipFilterStep _ _) ?_
    rw [consumedMessages_eq]
    exact LastOnly_takeThroughFirst _ _
  have hpost : dpost = [] := hlast dpre m dpost hdeliv hclose
  refine ⟨hpost, ?_, consumedMessages_eq segments⟩
  intro n hn
  have hread := readAt_of_closed (F := SkipFilter)
    (T := ChunkedMessage) (E := E) n
    (runMessageFetcher skipToMetaId (E := E) segments) (by rw [hfin])
  rw [hread]
  have hqlen : (runMessageFetcher skipToMetaId (E := E) segments).queue.length
      = dpre.length + 1 := by
    rw [hdeliv, hpost]
    simp
  have hnone : (runMessageFetcher skipToMetaId (E := E) segments).queue[n]? =
      none := by
    rw [List.getElem?_eq_none]
    omega
  rw [hnone]

theorem programEnded_stops_iterator_witness :
    (runMessageFetcher none (E := Unit)
        [[exMsg "a"], [exMsg "b", exEndMsg, exMsg "x"], [exMsg "y"]]).readAt 3
      = ReadResult.done := by
  have h := (programEnded_stops_iterator (E := Unit) none
    [[exMsg "a"], [exMsg "b", exEndMsg, exMsg "x"], [exMsg "y"]]
    exEndMsg [exMsg "a", exMsg "b"] [] (by decide) (by decide)).2.1 3
    (by decide)
  exact h

/-! ## Lemmas about the entry fetcher latch -/

theorem processEntry_preserves_latch (s : EntryFetcherState)
    (e : ChunkedEntry) (h : s.receivedSegment = true) :
    (processEntry s e).receivedSegment = true ∧
      (processEntry s e).backwardSegmentUri = s.backwardSegmentUri ∧
      (processEntry s e).backwardSnapshotUri = s.backwardSnapshotUri := by
  cases e <;> simp [processEntry, h]

theorem foldl_processEntry_preserves_latch :
    ∀ (entries : List ChunkedEntry) (s : EntryFetcherState),
      s.receivedSegment = true →
      (entries.foldl processEntry s).receivedSegment = true ∧
        (entries.foldl processEntry s).backwardSegmentUri =
          s.backwardSegmentUri ∧
        (entries.foldl processEntry s).backwardSnapshotUri =
          s.backwardSnapshotUri := by
  intro entries
  induction entries with
  | nil => intro s h; exact ⟨h, rfl, rfl⟩
  | cons e rest ih =>
    intro s h
    have h1 := processEntry_preserves_latch s e h
    have h2 := ih (processEntry s e) h1.1
    exact ⟨h2.1, h2.2.1.trans h1.2.1, h2.2.2.trans h1.2.2⟩

theorem processEntryFetch_preserves_latch (s : EntryFetcherState)
    (entries : List ChunkedEntry) (h : s.receivedSegment = true) :
    (processEntryFetch s entries).receivedSegment = true ∧
      (processEntryFetch s entries).backwardSegmentUri =
        s.backwardSegmentUri ∧
      (processEntryFetch s entries).backwardSnapshotUri =
        s.backwardSnapshotUri :=
  foldl_processEntry_preserves_latch entries
    { s with currentEntryAt := none } h

theorem runEntryFetcherFrom_preserves_latch :
    ∀ (fetches : List (List ChunkedEntry)) (s : EntryFetcherState),
      s.receivedSegment = true →
      (runEntryFetcherFrom s fetches).receivedSegment = true ∧
        (runEntryFetcherFrom s fetches).backwardSegmentUri =
          s.backwardSegmentUri ∧
        (runEntryFetcherFrom s fetches).backwardSnapshotUri =
          s.backwardSnapshotUri := by
  intro fetches
  induction fetches with
  | nil => intro s h; exact ⟨h, rfl, rfl⟩
  | cons entries rest ih =>
    intro s h
    have h1 := processEntryFetch_preserves_latch s entries h
    have hrw : runEntryFetcherFrom s (entries :: rest) =
        match (processEntryFetch s entries).currentEntryAt with
        | none => processEntryFetch s entries
        | some _ => runEntryFetcherFrom (processEntryFetch s entries) rest :=
      by rw [runEntryFetcherFrom]
    rcases hcur : (processEntryFetch s entries).currentEntryAt with _ | a
    · rw [hrw, hcur]
      exact h1
    · rw [hrw, hcur]
      have h2 := ih (processEntryFetch s entries) h1.1
      exact ⟨h2.1, h2.2.1.trans h1.2.1, h2.2.2.trans h1.2.2⟩

/-- C3 counterexample: after a fetch whose stream contained a `segment`,
the `backward` and `previous` entries at the start of the *next* fetch
(reached via a `next` entry) are still ignored — the backward URI is not
recorded and the previous segment is not emitted, because the
`receivedSegment` flag is declared outside the refetch loop and never
reset. -/
theorem backward_ignored_in_next_fetch :
    ((runEntryFetcher .now
        [[.segment { uri := "s1" }, .next 5],
          [.backward { segment := some "b", snapshot := some "bs" },
            .previous { uri := "p" }]]).backwardSegmentUri = none) ∧
      ((runEntryFetcher .now
        [[.segment { uri := "s1" }, .next 5],
          [.backward { segment := some "b", snapshot := some "bs" },
            .previous { uri := "p" }]]).backwardSegmentUri ≠ some "b") ∧
      ((runEntryFetcher .now
        [[.segment { uri := "s1" }, .next 5],
          [.backward { segment := some "b", snapshot := some "bs" },
            .previous { uri := "p" }]]).emitted = [{ uri := "s1" }]) := by
  refine ⟨by decide, by decide, by decide⟩

/-- C3 (amended): the skip-backwards flag is latched by the first
`segment` entry and applies for the entire remaining lifetime of the
entry fetcher, across refetches: once any segment has been seen, every
later `backward` or `previous` entry — in the same fetch or in any later
fetch reached via a `next` entry — is ignored (the state is unchanged),
and the recorded backward URIs never change again. -/
theorem receivedSegment_latched_across_fetches (s : EntryFetcherState)
    (h : s.receivedSegment = true) :
    (∀ b, processEntry s (.backward b) = s) ∧
      (∀ p, processEntry s (.previous p) = s) ∧
      (∀ fetches,
        (runEntryFetcherFrom s fetches).receivedSegment = true ∧
          (runEntryFetcherFrom s fetches).backwardSegmentUri =
            s.backwardSegmentUri ∧
          (runEntryFetcherFrom s fetches).backwardSnapshotUri =
            s.backwardSnapshotUri) := by
  refine ⟨?_, ?_, fun fetches =>
    runEntryFetcherFrom_preserves_latch fetches s h⟩
  · intro b; simp [processEntry, h]
  · intro p; simp [processEntry, h]

theorem receivedSegment_latched_across_fetches_witness :
    (runEntryFetcherFrom
        ⟨true, .now, some .now, some "x", none, []⟩
        [[.backward { segment := some "y", snapshot := some "z" }]]
      ).backwardSegmentUri = some "x" := by
  have h := (receivedSegment_latched_across_fetches
    ⟨true, .now, some .now, some "x", none, []⟩ rfl).2.2
    [[.backward { segment := some "y", snapshot := some "z" }]]
  exact h.2.1

/-! ## Lemmas about the backward page walk -/

theorem lastUris_cons (sU nU : Option String) (p : PackedSegment)
    (l : List PackedSegment) :
    lastUris sU nU (p :: l) = lastUris p.next p.snapshot l := by
  cases l with
  | nil => rfl
  | cons q l2 =>
    rcases h : (q :: l2).getLast? with _ | r
    · simp at h
    · simp [lastUris, List.getLast?_cons_cons, h]

/-- The backward walk along a fully decodable chain, with the page budget
and `buf` accumulator generalized. -/
theorem backwardWalk_chain (server : String → Option PackedSegment)
    (isSnapshot : Bool) (maxSeg : Nat) (uri : String)
    (pages : List PackedSegment)
    (hchain : BackwardChain server isSnapshot uri pages) :
    ∀ (buf : List (List ChunkedMessage)) (segU snapU : Option String)
      (fuel : Nat),
      fuel + buf.length = maxSeg → buf.length < maxSeg →
      backwardWalk server isSnapshot maxSeg none fuel uri buf segU snapU =
        .resolved
          ((buf ++ (pages.take (min pages.length (maxSeg - buf.length))).map
              PackedSegment.messages).reverse.flatten)
          (lastUris segU snapU (pages.take
              (min pages.length (maxSeg - buf.length)))).1
          (lastUris segU snapU (pages.take
              (min pages.length (maxSeg - buf.length)))).2 := by
  induction hchain with
  | last uri p hserve hsel =>
    intro buf segU snapU fuel hfuel hlt
    have hsel2 : (if isSnapshot then p.snapshot else p.next) = none := by
      simpa [selUri] using hsel
    rw [backwardWalk]
    have hmin : min ([p] : List PackedSegment).length (maxSeg - buf.length)
        = 1 := by
      simp
      omega
    rw [hmin]
    simp [hserve, hsel2, lastUris]
  | cons uri uri1 p ps hserve hsel htail ih =>
    intro buf segU snapU fuel hfuel hlt
    have hsel2 : (if isSnapshot then p.snapshot else p.next) = some uri1 := by
      simpa [selUri] using hsel
    rw [backwardWalk]
    by_cases hstop : maxSeg ≤ buf.length + 1
    · have hmin : min (p :: ps).length (maxSeg - buf.length) = 1 := by
        simp
        omega
      rw [hmin]
      simp [hserve, hsel2, lastUris, hstop]
    · have hlt1 : buf.length + 1 < maxSeg := by omega
      obtain ⟨fuel1, rfl⟩ : ∃ f1, fuel = f1 + 1 := ⟨fuel - 1, by omega⟩
      have hrec := ih (buf ++ [p.messages]) p.next p.snapshot fuel1
        (by simp; omega)
        (by simp; omega)
      have hk : min (p :: ps).length (maxSeg - buf.length) =
          min ps.length (maxSeg - (buf ++ [p.messages]).length) + 1 := by
        simp
        omega
      rw [hk]
      simp [hserve, hsel2, hstop, hrec, lastUris_cons]

/-- The backward walk hits the truncated page and the whole promise
rejects, no matter how many pages decoded before it. -/
theorem backwardWalk_chainFail_rejects (server : String → Option PackedSegment)
    (isSnapshot : Bool) (maxSeg : Nat) (uri : String)
    (pages : List PackedSegment) (failUri : String)
    (hchain : BackwardChainFail server isSnapshot uri pages failUri) :
    ∀ (buf : List (List ChunkedMessage)) (segU snapU : Option String)
      (fuel : Nat),
      fuel + buf.length = maxSeg → buf.length + pages.length < maxSeg →
      backwardWalk server isSnapshot maxSeg none fuel uri buf segU snapU =
        .rejected failUri := by
  induction hchain with
  | here uri hserve =>
    intro buf segU snapU fuel hfuel hroom
    rw [backwardWalk]
    simp [hserve]
  | cons uri uri1 p ps failUri hserve hsel htail ih =>
    intro buf segU snapU fuel hfuel hroom
    have hsel2 : (if isSnapshot then p.snapshot else p.next) = some uri1 := by
      simpa [selUri] using hsel
    rw [backwardWalk]
    simp only [List.length_cons] at hroom
    obtain ⟨fuel1, rfl⟩ : ∃ f1, fuel = f1 + 1 := ⟨fuel - 1, by omega⟩
    have hrec := ih (buf ++ [p.messages]) p.next p.snapshot fuel1
      (by simp; omega)
      (by simp; omega)
    have hstop2 : ¬ (maxSeg ≤ buf.length + 1) := by omega
    simp [hserve, hsel2, hstop2, hrec]

/-- The backward walk aborted after `j` decoded pages resolves with
exactly those pages; the `segmentUri`/`snapshotUri` locals hold the URIs
of the last decoded page. -/
theorem backwardWalk_chainFail_abort (server : String → Option PackedSegment)
    (isSnapshot : Bool) (maxSeg : Nat) (uri : String)
    (pages : List PackedSegment) (failUri : String)
    (hchain : BackwardChainFail server isSnapshot uri pages failUri) :
    ∀ (j : Nat) (buf : List (List ChunkedMessage))
      (segU snapU : Option String) (fuel : Nat),
      fuel + buf.length = maxSeg → buf.length + pages.length < maxSeg →
      j ≤ pages.length →
      backwardWalk server isSnapshot maxSeg (some (buf.length + j)) fuel uri
          buf segU snapU =
        .resolved
          ((buf ++ (pages.take j).map PackedSegment.messages).reverse.flatten)
          (lastUris segU snapU (pages.take j)).1
          (lastUris segU snapU (pages.take j)).2 := by
  induction hchain with
  | here uri hserve =>
    intro j buf segU snapU fuel hfuel hroom hj
    have hj0 : j = 0 := by simpa using hj
    subst hj0
    rw [backwardWalk]
    simp [lastUris]
  | cons uri uri1 p ps failUri hserve hsel htail ih =>
    intro j buf segU snapU fuel hfuel hroom hj
    have hsel2 : (if isSnapshot then p.snapshot else p.next) = some uri1 := by
      simpa [selUri] using hsel
    rw [backwardWalk]
    cases j with
    | zero => simp [lastUris]
    | succ j1 =>
      simp only [List.length_cons] at hroom hj
      obtain ⟨fuel1, rfl⟩ : ∃ f1, fuel = f1 + 1 := ⟨fuel - 1, by omega⟩
      have hrec := ih j1 (buf ++ [p.messages]) p.next p.snapshot fuel1
        (by simp; omega)
        (by simp; omega)
        (by omega)
      simp only [List.length_append, List.length_singleton] at hrec
      have harith : buf.length + (j1 + 1) = buf.length + 1 + j1 := by omega
      have hne : buf.length + 1 + j1 ≠ buf.length := by omega
      have hstop2 : ¬ (maxSeg ≤ buf.length + 1) := by omega
      rw [harith]
      simp [hserve, hsel2, hne, hstop2, hrec, lastUris_cons]

/-- C4: a completed backward fetch walking pages P1 (fetched first) …
Pn (fetched last) resolves with `flatten(\x5bPn, …, P1\x5d)`: the pages in
reverse fetch order, each page's internal order preserved; the walk takes
`min(chain length, maxSegmentCount)` pages (with `maxSegmentCount ≤ 0`
replaced by `Number.MAX_SAFE_INTEGER`, hence unlimited for any chain of at
most that many pages). -/
theorem backwardMessages_flatten (server : String → Option PackedSegment)
    (isSnapshot : Bool) (uri : String) (pages : List PackedSegment)
    (maxSegmentCount : Int)
    (hchain : BackwardChain server isSnapshot uri pages) :
    (fetchBackwardMessages server uri maxSegmentCount isSnapshot none =
      .resolved
        (((pages.take (min pages.length
            (if maxSegmentCount ≤ 0 then MAX_SAFE_INTEGER
              else maxSegmentCount.toNat))).map
            PackedSegment.messages).reverse.flatten)
        (lastUris none none (pages.take (min pages.length
            (if maxSegmentCount ≤ 0 then MAX_SAFE_INTEGER
              else maxSegmentCount.toNat)))).1
        (lastUris none none (pages.take (min pages.length
            (if maxSegmentCount ≤ 0 then MAX_SAFE_INTEGER
              else maxSegmentCount.toNat)))).2) ∧
      (maxSegmentCount ≤ 0 → pages.length ≤ MAX_SAFE_INTEGER →
        min pages.length (if maxSegmentCount ≤ 0 then MAX_SAFE_INTEGER
          else maxSegmentCount.toNat) = pages.length) := by
  have hpos : 1 ≤ (if maxSegmentCount ≤ 0 then MAX_SAFE_INTEGER
      else maxSegmentCount.toNat) := by
    by_cases hc : maxSegmentCount ≤ 0
    · simp only [hc, if_pos]
      norm_num [MAX_SAFE_INTEGER]
    · simp only [hc, if_neg, Bool.false_eq_true, not_false_iff]
      omega
  constructor
  · have h := backwardWalk_chain server isSnapshot
      (if maxSegmentCount ≤ 0 then MAX_SAFE_INTEGER
        else maxSegmentCount.toNat) uri pages hchain [] none none
      (if maxSegmentCount ≤ 0 then MAX_SAFE_INTEGER
        else maxSegmentCount.toNat)
      (by simp) (by simpa using hpos)
    simpa [fetchBackwardMessages] using h
  · intro hc hfit
    rw [if_pos hc]
    exact min_eq_left hfit

theorem backwardMessages_flatten_witness :
    fetchBackwardMessages exServer "a" 10 false none =
      .resolved [exMsg "m3", exMsg "m1", exMsg "m2"] none (some "snap") := by
  have hchain : BackwardChain exServer false "a"
      [{ messages := [exMsg "m1", exMsg "m2"], next := some "b",
          snapshot := none },
        { messages := [exMsg "m3"], next := none, snapshot := some "snap" }] :=
    .cons "a" "b" _ _ (by decide) (by decide)
      (.last "b" _ (by decide) (by decide))
  have h := (backwardMessages_flatten exServer false "a" _ 10 hchain).1
  rw [h]
  decide

/-- C6 counterexample: the chain at "a" has one fully decoded page (two
messages, next pointer "b") and the body at "b" is truncated; the claim
says `getBackwardMessages` resolves with the decoded page's messages, but
the code rejects the whole promise with the decode error. -/
theorem truncatedPage_rejects_despite_success :
    (fetchBackwardMessages exServerTrunc "a" 10 false none =
        .rejected "b") ∧
      (fetchBackwardMessages exServerTrunc "a" 10 false none ≠
        .resolved [exMsg "m1", exMsg "m2"] (some "b") none) := by
  constructor
  · decide
  · decide

/-- C6 (amended): a truncated (undecodable) page makes the whole
`fetchBackwardMessages` promise reject with the decode error, no matter
how many pages were fully decoded before it (so the caller's backward URI
state is never updated); partial results are delivered only on a
caller-initiated abort, in which case the call resolves with the messages
of the fully-decoded pages and URIs reflecting the last decoded page. -/
theorem backwardTruncation_rejects (server : String → Option PackedSegment)
    (isSnapshot : Bool) (uri : String) (pages : List PackedSegment)
    (failUri : String) (maxSegmentCount : Int)
    (hchain : BackwardChainFail server isSnapshot uri pages failUri)
    (hroom : pages.length < (if maxSegmentCount ≤ 0 then MAX_SAFE_INTEGER
      else maxSegmentCount.toNat)) :
    (fetchBackwardMessages server uri maxSegmentCount isSnapshot none =
        .rejected failUri) ∧
      (∀ j, j ≤ pages.length →
        fetchBackwardMessages server uri maxSegmentCount isSnapshot (some j) =
          .resolved
            (((pages.take j).map PackedSegment.messages).reverse.flatten)
            (lastUris none none (pages.take j)).1
            (lastUris none none (pages.take j)).2) := by
  constructor
  · have h := backwardWalk_chainFail_rejects server isSnapshot
      (if maxSegmentCount ≤ 0 then MAX_SAFE_INTEGER
        else maxSegmentCount.toNat) uri pages failUri hchain [] none none
      (if maxSegmentCount ≤ 0 then MAX_SAFE_INTEGER
        else maxSegmentCount.toNat)
      (by simp) (by simpa using hroom)
    simpa [fetchBackwardMessages] using h
  · intro j hj
    have h := backwardWalk_chainFail_abort server isSnapshot
      (if maxSegmentCount ≤ 0 then MAX_SAFE_INTEGER
        else maxSegmentCount.toNat) uri pages failUri hchain j [] none none
      (if maxSegmentCount ≤ 0 then MAX_SAFE_INTEGER
        else maxSegmentCount.toNat)
      (by simp) (by simpa using hroom) hj
    simpa [fetchBackwardMessages] using h

theorem backwardTruncation_rejects_witness :
    fetchBackwardMessages exServerTrunc "a" 10 false (some 1) =
      .resolved [exMsg "m1", exMsg "m2"] (some "b") none := by
  have hchain : BackwardChainFail exServerTrunc false "a"
      [{ messages := [exMsg "m1", exMsg "m2"], next := some "b",
          snapshot := none }] "b" :=
    .cons "a" "b" _ [] "b" (by decide) (by decide) (.here "b" (by decide))
  have h := (backwardTruncation_rejects exServerTrunc false "a" _ "b" 10
    hchain (by decide)).2 1 (by decide)
  rw [h]
  decide

end NDGR
